import Mathlib

/-!
# NEC infrared decoder (`src/nec.c`): shallow embedding and verified properties

The decoder of `nec.c` is an interrupt handler (`ISR(INT0_vect)`) driving a four-phase
state machine over the file-scope variables `buffer`, `ready`, `counter`, `state`, and a
small control surface (`nec_start`, `nec_stop`, `nec_read`).

Machine integers are natural numbers reduced modulo `2 ^ w` where the C type has width `w`.
The target is an 8-bit AVR compiled with avr-gcc, whose `int` is 16 bits wide.
-/

namespace NEC

set_option maxRecDepth 20000

/-! ## Constants of `nec.c` -/

def NEC_STATE_AGC : Nat := 0
def NEC_STATE_GAP : Nat := 1
def NEC_STATE_BIT : Nat := 2
def NEC_STATE_FIN : Nat := 3

def NEC_TIMING_AGC_MIN : Nat := 120
def NEC_TIMING_AGC_MAX : Nat := 160
def NEC_TIMING_NEW_MIN : Nat := 60
def NEC_TIMING_NEW_MAX : Nat := 80
def NEC_TIMING_REPEAT_MIN : Nat := 30
def NEC_TIMING_REPEAT_MAX : Nat := 40
def NEC_TIMING_SHORT_MIN : Nat := 5
def NEC_TIMING_SHORT_MAX : Nat := 10
def NEC_TIMING_LONG_MIN : Nat := 20
def NEC_TIMING_LONG_MAX : Nat := 30

/-! ## Constants of the device header (`avr/io.h`, ATmega48/88/168/328 family)

The header is not part of the repository; the bit numbers below are the ones of the
devices that have the registers `EICRA`, `EIMSK`, `TIFR0`, `TCNT0` used by `nec.c`. -/

/-- Bit number of the INT0 enable bit in `EIMSK`. -/
def INT0 : Nat := 0
/-- Bit number of the receiver pin in `PIND`. -/
def PD2 : Nat := 2
/-- Bit number of the timer-0 overflow flag in `TIFR0`. -/
def TOV0 : Nat := 0

/-- The avr-libc bit-value helper: `_BV(n)` is `1 << n`. -/
def _BV (n : Nat) : Nat := 1 <<< n

/-! ## C integer arithmetic at the target widths -/

/-- Width in bits of the C type `int` on the AVR target. -/
def INT_BITS : Nat := 16

/-- Conversion to `uint8_t`. -/
def to_uint8 (x : Nat) : Nat := x % 2 ^ 8

/-- Conversion to `uint32_t` of a natural number. -/
def to_uint32 (x : Nat) : Nat := x % 2 ^ 32

/-- The C expression `a << n` on operands of type `int`, as the two's-complement bit
pattern of the result: the product `a * 2 ^ n` truncated to the width of `int`.
For `n` not below the width this is `0`, which is what the shift loop emitted by avr-gcc
leaves in the register pair. -/
def int_shl (a n : Nat) : Nat := (a * 2 ^ n) % 2 ^ INT_BITS

/-- Conversion `(uint32_t) x` of an `int` given by its two's-complement bit pattern:
a negative value (sign bit set) is reduced modulo `2 ^ 32`, i.e. sign-extended. -/
def int_to_uint32 (x : Nat) : Nat :=
  if 2 ^ (INT_BITS - 1) ≤ x then to_uint32 (x + (2 ^ 32 - 2 ^ INT_BITS)) else to_uint32 x

/-- Bitwise complement at 8 bits: `(uint8_t)~x`. -/
def not_uint8 (x : Nat) : Nat := 255 - to_uint8 x

/-! ## Data model -/

/-- The file-scope variables of `nec.c` together with the I/O registers the decoder
writes. `TCNT0` holds the tick count the handler samples on entry. -/
structure Decoder where
  /-- `static volatile uint32_t buffer` -/
  buffer : Nat
  /-- `static volatile uint8_t ready` -/
  ready : Nat
  /-- `static volatile uint8_t counter` -/
  counter : Nat
  /-- `static volatile uint8_t state` -/
  state : Nat
  /-- External interrupt mask register. -/
  EIMSK : Nat
  /-- Timer/counter 0 value. -/
  TCNT0 : Nat
  /-- Timer/counter 0 interrupt flag register. -/
  TIFR0 : Nat
deriving DecidableEq

/-- The values of the variables given by their static initialisers
(`buffer = 0`, `ready = 0`, `counter = 32`, `state = NEC_STATE_AGC`), with the registers at
their reset value. -/
def power_on : Decoder :=
  { buffer := 0, ready := 0, counter := 32, state := NEC_STATE_AGC,
    EIMSK := 0, TCNT0 := 0, TIFR0 := 0 }

/-- Whether the INT0 edge interrupt is enabled: bit `INT0` of `EIMSK` is set. -/
def int0_enabled (s : Decoder) : Prop := s.EIMSK &&& _BV INT0 ≠ 0

instance (s : Decoder) : Decidable (int0_enabled s) := by
  unfold int0_enabled; infer_instance

/-! ## Control surface -/

/-- `void nec_start(void)` -/
def nec_start (s : Decoder) : Decoder :=
  { s with
    buffer := 0
    ready := 0
    counter := 32
    state := NEC_STATE_AGC
    EIMSK := s.EIMSK ||| to_uint8 (_BV INT0) }

/-- `void nec_stop(void)` -/
def nec_stop (s : Decoder) : Decoder :=
  { s with EIMSK := s.EIMSK &&& not_uint8 (_BV INT0) }

/-- Outcome of a call `nec_read(data)`: the decoder afterwards, the returned flag and the
contents of `*data` afterwards. -/
structure ReadResult where
  dec : Decoder
  ret : Nat
  data : Nat
deriving DecidableEq

/-- `uint8_t nec_read(uint32_t *data)`; `data` is the value of `*data` before the call. -/
def nec_read (s : Decoder) (data : Nat) : ReadResult :=
  if s.ready ≠ 0 then
    { dec := s, ret := 1, data := s.buffer }
  else
    { dec := s, ret := 0, data := data }

/-! ## The edge interrupt handler -/

/-- The register write `TIFR0 |= _BV(TOV0)`: the value written is the old contents with
the `TOV0` bit set, and the hardware clears every flag to which a one is written. -/
def write_TIFR0 (old : Nat) : Nat :=
  old &&& not_uint8 (old ||| _BV TOV0)

/-- The statement `counter--` on a `uint8_t`. -/
def dec_uint8 (c : Nat) : Nat := (c + 255) % 2 ^ 8

/-- `ISR(INT0_vect)`; `PIND` is the value read from the input port, the tick count is read
from `TCNT0`. In the C body each phase test guards a window test that assigns and returns;
nothing is assigned on the way to a `return`, so falling out of a phase test leaves the
variables as they were and the body is the chain of tests below, each conjoining the phase
test with its window test, ending in the final `state = NEC_STATE_AGC`. -/
def INT0_vect (PIND : Nat) (s0 : Decoder) : Decoder :=
  let pin := to_uint8 (PIND &&& _BV PD2)
  let tau := to_uint8 s0.TCNT0
  let s1 := { s0 with TCNT0 := 0 }
  let s2 :=
    if (0 : Nat) ≠ 0 ∧ s1.TIFR0 &&& _BV TOV0 ≠ 0 then
      { s1 with buffer := 0, ready := 0, counter := 32, state := NEC_STATE_AGC }
    else s1
  let s := { s2 with TIFR0 := write_TIFR0 s2.TIFR0 }
  if s.state = NEC_STATE_AGC ∧ pin ≠ 0 ∧
      (tau > NEC_TIMING_AGC_MIN ∧ tau < NEC_TIMING_AGC_MAX) then
    { s with state := NEC_STATE_GAP }
  else if s.state = NEC_STATE_GAP ∧ pin = 0 ∧
      (tau > NEC_TIMING_NEW_MIN ∧ tau < NEC_TIMING_NEW_MAX) then
    { s with state := NEC_STATE_BIT }
  else if s.state = NEC_STATE_GAP ∧ pin = 0 ∧
      (tau > NEC_TIMING_REPEAT_MIN ∧ tau < NEC_TIMING_REPEAT_MAX) then
    { s with state := NEC_STATE_FIN }
  else if s.state = NEC_STATE_BIT ∧ pin = 0 ∧
      (tau > NEC_TIMING_SHORT_MIN ∧ tau < NEC_TIMING_SHORT_MAX) then
    let c := dec_uint8 s.counter
    let b := s.buffer ||| int_to_uint32 (int_shl 0 c)
    { s with counter := c, buffer := b,
             state := if c = 0 then NEC_STATE_FIN else s.state }
  else if s.state = NEC_STATE_BIT ∧ pin = 0 ∧
      (tau > NEC_TIMING_LONG_MIN ∧ tau < NEC_TIMING_LONG_MAX) then
    let c := dec_uint8 s.counter
    let b := s.buffer ||| int_to_uint32 (int_shl 1 c)
    { s with counter := c, buffer := b,
             state := if c = 0 then NEC_STATE_FIN else s.state }
  else if s.state = NEC_STATE_FIN ∧ pin ≠ 0 then
    { s with ready := 1, EIMSK := s.EIMSK &&& not_uint8 (_BV INT0) }
  else
    { s with state := NEC_STATE_AGC }

/-! ## Edges and runs -/

/-- The value of `PIND` seen by the handler for an edge to the given level of the receiver
line (the other pins of the port read as zero). -/
def pind_of (level : Bool) : Nat := if level then _BV PD2 else 0

/-- One electrical edge on the receiver line: the line is at `level` afterwards and the
timer counted `tau` ticks since the handler last cleared it. The handler runs only when
the INT0 interrupt is enabled. -/
def edge (level : Bool) (tau : Nat) (s : Decoder) : Decoder :=
  if int0_enabled s then INT0_vect (pind_of level) { s with TCNT0 := tau } else s

/-- Handling a list of edges in order. -/
def edges : List (Bool × Nat) → Decoder → Decoder
  | [], s => s
  | (l, t) :: es, s => edges es (edge l t s)

/-- The events that can touch the decoder: an edge, and the three calls of the control
surface (`read` carries the prior contents of `*data`). -/
inductive Op where
  | edge (level : Bool) (tau : Nat)
  | stop
  | read (data : Nat)
  | start
deriving DecidableEq

/-- Effect of one event on the decoder. -/
def step (s : Decoder) : Op → Decoder
  | Op.edge l t => edge l t s
  | Op.stop => nec_stop s
  | Op.read d => (nec_read s d).dec
  | Op.start => nec_start s

/-- Effect of a sequence of events. -/
def run : List Op → Decoder → Decoder
  | [], s => s
  | o :: os, s => run os (step s o)

/-- The tick list of a well-formed frame for the 32-bit value `v`: element `k` is a short
tick when bit `31 - k` of `v` is clear and a long tick when it is set. -/
def bit_ticks (v : Nat) (short long : Nat) : List Nat :=
  (List.range 32).map fun k => if v.testBit (31 - k) then long else short

/-- A tick accepted as a bit in phase `NEC_STATE_BIT`: inside the short or the long
window. -/
def accepted_bit (t : Nat) : Prop :=
  (NEC_TIMING_SHORT_MIN < t ∧ t < NEC_TIMING_SHORT_MAX) ∨
  (NEC_TIMING_LONG_MIN < t ∧ t < NEC_TIMING_LONG_MAX)

instance (t : Nat) : Decidable (accepted_bit t) := by
  unfold accepted_bit; infer_instance

/-- Low-level edges with the given ticks, as the bit edges of a frame are. -/
def low_edges (ts : List Nat) : List (Bool × Nat) := ts.map fun t => (false, t)

/-- A whole frame: preamble edge, new-data gap edge, the low-level bit edges, stop edge. -/
def frame (p g : Nat) (ticks : List Nat) (stop : Nat) : List (Bool × Nat) :=
  (true, p) :: (false, g) :: low_edges ticks ++ [(true, stop)]

/-- The ticks `ts` encode `v` from bit position `n - 1` downwards: a tick in the short
window stands for a clear bit, one in the long window for a set bit. -/
def encodes (v : Nat) : Nat → List Nat → Prop
  | _, [] => True
  | n, t :: ts =>
    (if v.testBit (n - 1) then NEC_TIMING_LONG_MIN < t ∧ t < NEC_TIMING_LONG_MAX
      else NEC_TIMING_SHORT_MIN < t ∧ t < NEC_TIMING_SHORT_MAX) ∧ encodes v (n - 1) ts

instance encodes_decidable (v : Nat) : (n : Nat) → (ts : List Nat) → Decidable (encodes v n ts)
  | _, [] => by unfold encodes; infer_instance
  | n, t :: ts => by
    unfold encodes
    have := encodes_decidable v (n - 1) ts
    infer_instance

/-- Two decoders agree on the variables of `nec.c` and on whether INT0 is enabled. -/
def same_decoder (s t : Decoder) : Prop :=
  s.buffer = t.buffer ∧ s.ready = t.ready ∧ s.counter = t.counter ∧ s.state = t.state ∧
  (int0_enabled s ↔ int0_enabled t)

/-- The value the handler accumulates from an empty `buffer` for ticks encoding the bits
`n - 1` down to `0` of `v`: the disjunction of the masks `(uint32_t)(bit << i)`. -/
def accumulated (v : Nat) : Nat → Nat
  | 0 => 0
  | n + 1 => int_to_uint32 (int_shl (if v.testBit n then 1 else 0) n) ||| accumulated v n

/-- The classification table of the specification (§4.2 step 2), row by row: whether an
edge to `level` after `tau` ticks matches a row valid for `phase`. The windows are the
open intervals of the table; the last row, for phase Complete, accepts any tick. This
definition follows the specification, not `nec.c`. -/
def spec_table_row (phase : Nat) (level : Bool) (tau : Nat) : Prop :=
  (phase = NEC_STATE_AGC ∧ level = true ∧ 120 < tau ∧ tau < 160) ∨
  (phase = NEC_STATE_GAP ∧ level = false ∧ 60 < tau ∧ tau < 80) ∨
  (phase = NEC_STATE_GAP ∧ level = false ∧ 30 < tau ∧ tau < 40) ∨
  (phase = NEC_STATE_BIT ∧ level = false ∧ 5 < tau ∧ tau < 10) ∨
  (phase = NEC_STATE_BIT ∧ level = false ∧ 20 < tau ∧ tau < 30) ∨
  (phase = NEC_STATE_FIN ∧ level = true)

instance (phase : Nat) (level : Bool) (tau : Nat) :
    Decidable (spec_table_row phase level tau) := by
  unfold spec_table_row; infer_instance

/-- An armed decoder in phase `NEC_STATE_BIT` with `counter = n` and `buffer = a`. -/
def receiving (n a : Nat) : Decoder :=
  { nec_start power_on with state := NEC_STATE_BIT, counter := n, buffer := a }

/-- A frame completed by 32 short bit edges and then, instead of the stop edge, one more
low edge, followed by a fresh preamble and new-data gap. -/
def restart_after_complete : List (Bool × Nat) :=
  (true, 140) :: (false, 70) :: low_edges (List.replicate 32 7) ++
    [(false, 7), (true, 140), (false, 70)]

/-! ## Bit-level facts about the interrupt mask -/

theorem bv_INT0_uint8 : to_uint8 (_BV INT0) = 1 := by decide

theorem not_bv_INT0_uint8 : not_uint8 (_BV INT0) = 254 := by decide

theorem lor_one_land_one (x : Nat) : (x ||| 1) &&& 1 = 1 := by
  apply Nat.eq_of_testBit_eq
  intro i
  simp only [Nat.testBit_and, Nat.testBit_or]
  cases i with
  | zero => simp
  | succ n => simp [Nat.testBit_succ]

theorem land_254_land_one (x : Nat) : (x &&& 254) &&& 1 = 0 := by
  rw [Nat.and_assoc]; simp

theorem lor_one_idem (x : Nat) : (x ||| 1) ||| 1 = x ||| 1 := by
  rw [Nat.or_assoc]; simp

theorem testBit_land_254 (x i : Nat) :
    (x &&& 254).testBit i = (decide (1 ≤ i ∧ i < 8) && x.testBit i) := by
  rw [Nat.testBit_and]
  by_cases h : i < 8
  · interval_cases i <;> simp <;> (intro _; decide)
  · have h254 : Nat.testBit 254 i = false := by
      apply Nat.testBit_lt_two_pow
      calc 254 < 2 ^ 8 := by norm_num
        _ ≤ 2 ^ i := Nat.pow_le_pow_right (by norm_num) (by omega)
    simp [h254, h]

theorem int0_enabled_iff (s : Decoder) : int0_enabled s ↔ s.EIMSK &&& 1 ≠ 0 := Iff.rfl

theorem nec_start_enabled (s : Decoder) : int0_enabled (nec_start s) := by
  rw [int0_enabled_iff]
  simp only [nec_start, bv_INT0_uint8, lor_one_land_one]
  decide

theorem nec_stop_disabled (s : Decoder) : ¬ int0_enabled (nec_stop s) := by
  rw [int0_enabled_iff]
  simp only [nec_stop, not_bv_INT0_uint8, land_254_land_one]
  decide

/-! ## The control surface -/

/-- C4: whatever the decoder held before, `nec_start` leaves `buffer = 0`, `counter = 32`,
`state = NEC_STATE_AGC`, `ready = 0` and the INT0 interrupt enabled; calling it twice gives
the same decoder as calling it once. -/
theorem nec_start_resets_and_idempotent (s : Decoder) :
    (nec_start s).buffer = 0 ∧ (nec_start s).counter = 32 ∧
    (nec_start s).state = NEC_STATE_AGC ∧ (nec_start s).ready = 0 ∧
    int0_enabled (nec_start s) ∧ nec_start (nec_start s) = nec_start s := by
  refine ⟨rfl, rfl, rfl, rfl, nec_start_enabled s, ?_⟩
  simp only [nec_start, bv_INT0_uint8, lor_one_idem]

/-- C8: `nec_stop` clears bit `INT0` of `EIMSK` and keeps the other seven bits of the
register; `buffer`, `counter`, `state` and `ready` are unchanged, and `nec_read` gives the
same flag and the same `*data` right after `nec_stop` as right before it. -/
theorem nec_stop_frame (s : Decoder) (d : Nat) :
    (nec_stop s).buffer = s.buffer ∧ (nec_stop s).counter = s.counter ∧
    (nec_stop s).state = s.state ∧ (nec_stop s).ready = s.ready ∧
    ¬ int0_enabled (nec_stop s) ∧
    (∀ i, (nec_stop s).EIMSK.testBit i = (decide (1 ≤ i ∧ i < 8) && s.EIMSK.testBit i)) ∧
    (nec_read (nec_stop s) d).ret = (nec_read s d).ret ∧
    (nec_read (nec_stop s) d).data = (nec_read s d).data := by
  refine ⟨rfl, rfl, rfl, rfl, nec_stop_disabled s, ?_, ?_, ?_⟩
  · intro i
    simp only [nec_stop, not_bv_INT0_uint8, testBit_land_254]
  · simp only [nec_read, nec_stop]
    split <;> rfl
  · simp only [nec_read, nec_stop]
    split <;> rfl

theorem nec_read_dec (s : Decoder) (d : Nat) : (nec_read s d).dec = s := by
  unfold nec_read
  split <;> rfl

theorem run_reads (s : Decoder) (ds : List Nat) : run (ds.map Op.read) s = s := by
  induction ds with
  | nil => rfl
  | cons d ds ih => simp only [List.map_cons, run, step, nec_read_dec, ih]

/-- C9: `nec_read` changes no field of the decoder (so the interrupt enable is as before and
the decoder is not re-armed); after any number of further `nec_read` calls, a call returns
the same flag as the first one, and when that flag is 1 it stores the same value. -/
theorem nec_read_frame_and_stable (s : Decoder) (d : Nat) (ds : List Nat) (d2 : Nat) :
    (nec_read s d).dec = s ∧
    (int0_enabled (nec_read s d).dec ↔ int0_enabled s) ∧
    run (ds.map Op.read) s = s ∧
    (nec_read (run (ds.map Op.read) (nec_read s d).dec) d2).ret = (nec_read s d).ret ∧
    ((nec_read s d).ret = 1 →
      (nec_read (run (ds.map Op.read) (nec_read s d).dec) d2).data = (nec_read s d).data) := by
  rw [nec_read_dec, run_reads]
  refine ⟨rfl, Iff.rfl, rfl, ?_, ?_⟩
  · simp only [nec_read]
    split <;> rfl
  · simp only [nec_read]
    split
    · intro _; rfl
    · intro h; exact absurd h (by simp)

/-! ## One handler step -/

theorem pin_high : to_uint8 (pind_of true &&& _BV PD2) ≠ 0 := by decide

theorem pin_low : to_uint8 (pind_of false &&& _BV PD2) = 0 := by decide

theorem to_uint8_of_lt {x : Nat} (h : x < 256) : to_uint8 x = x := by
  unfold to_uint8; omega

/-- The handler either leaves `ready` and `EIMSK` alone, or it ran the finalisation branch:
the phase was and stays `NEC_STATE_FIN`, `ready` becomes 1 and the INT0 bit is cleared. -/
theorem INT0_vect_cases (P : Nat) (s : Decoder) :
    ((INT0_vect P s).ready = s.ready ∧ (INT0_vect P s).EIMSK = s.EIMSK) ∨
    (s.state = NEC_STATE_FIN ∧ (INT0_vect P s).state = NEC_STATE_FIN ∧
      (INT0_vect P s).ready = 1 ∧ (INT0_vect P s).EIMSK = s.EIMSK &&& 254 ∧
      (INT0_vect P s).buffer = s.buffer ∧ (INT0_vect P s).counter = s.counter) := by
  unfold INT0_vect
  simp only [not_bv_INT0_uint8]
  split_ifs <;> simp_all

theorem edge_cases (l : Bool) (t : Nat) (s : Decoder) :
    ((edge l t s).ready = s.ready ∧ (edge l t s).EIMSK = s.EIMSK) ∨
    (int0_enabled s ∧ s.state = NEC_STATE_FIN ∧ (edge l t s).state = NEC_STATE_FIN ∧
      (edge l t s).ready = 1 ∧ (edge l t s).EIMSK = s.EIMSK &&& 254 ∧
      (edge l t s).buffer = s.buffer ∧ (edge l t s).counter = s.counter) := by
  unfold edge
  split
  · next h =>
    rcases INT0_vect_cases (pind_of l) { s with TCNT0 := t } with h1 | h1
    · exact Or.inl h1
    · exact Or.inr ⟨h, h1⟩
  · exact Or.inl ⟨rfl, rfl⟩

theorem edge_disabled (l : Bool) (t : Nat) (s : Decoder) (h : ¬ int0_enabled s) :
    edge l t s = s := by
  unfold edge
  rw [if_neg h]

theorem edges_disabled (es : List (Bool × Nat)) (s : Decoder) (h : ¬ int0_enabled s) :
    edges es s = s := by
  induction es with
  | nil => rfl
  | cons e es ih =>
    obtain ⟨l, t⟩ := e
    simp only [edges, edge_disabled l t s h, ih]

theorem disabled_of_land_254 {s : Decoder} {e : Nat} (h : s.EIMSK = e &&& 254) :
    ¬ int0_enabled s := by
  rw [int0_enabled_iff, h, land_254_land_one]
  decide

/-! ## Invariant: a ready result means phase Complete and a disabled interrupt -/

theorem ready_inv_step (s : Decoder) (o : Op)
    (h : s.ready ≠ 0 → s.state = NEC_STATE_FIN ∧ ¬ int0_enabled s) :
    (step s o).ready ≠ 0 → (step s o).state = NEC_STATE_FIN ∧ ¬ int0_enabled (step s o) := by
  cases o with
  | edge l t =>
    simp only [step]
    by_cases hen : int0_enabled s
    · rcases edge_cases l t s with ⟨h1, _⟩ | ⟨_, _, h3, _, h5, _⟩
      · intro hr
        rw [h1] at hr
        exact absurd hen (h hr).2
      · intro _
        exact ⟨h3, disabled_of_land_254 h5⟩
    · rw [edge_disabled l t s hen]
      exact h
  | stop =>
    simp only [step]
    intro hr
    exact ⟨(h hr).1, nec_stop_disabled s⟩
  | read d =>
    simp only [step, nec_read_dec]
    exact h
  | start =>
    simp only [step]
    intro hr
    exact absurd rfl hr

theorem ready_inv_run (ops : List Op) (s : Decoder)
    (h : s.ready ≠ 0 → s.state = NEC_STATE_FIN ∧ ¬ int0_enabled s) :
    (run ops s).ready ≠ 0 →
      (run ops s).state = NEC_STATE_FIN ∧ ¬ int0_enabled (run ops s) := by
  induction ops generalizing s with
  | nil => exact h
  | cons o os ih => exact ih (step s o) (ready_inv_step s o h)

/-- C2: in every decoder state reached from `nec_start` by any sequence of edges (handled
only while INT0 is enabled) and of `nec_stop`, `nec_read` (and also `nec_start`) calls, if
the phase is not `NEC_STATE_FIN` then `nec_read` returns 0 and `*data` keeps the value it
had before the call. -/
theorem nec_read_not_complete (s0 : Decoder) (ops : List Op) (d : Nat)
    (h : (run ops (nec_start s0)).state ≠ NEC_STATE_FIN) :
    (nec_read (run ops (nec_start s0)) d).ret = 0 ∧
    (nec_read (run ops (nec_start s0)) d).data = d := by
  have hr : (run ops (nec_start s0)).ready = 0 := by
    by_contra hne
    exact h (ready_inv_run ops (nec_start s0) (fun h0 => absurd rfl h0) hne).1
  simp only [nec_read, hr]
  exact ⟨rfl, rfl⟩

theorem nec_read_not_complete_witness :
    (run [Op.edge true 140, Op.edge false 70, Op.edge false 7, Op.read 5, Op.stop]
      (nec_start power_on)).state ≠ NEC_STATE_FIN ∧
    ((nec_read (run [Op.edge true 140, Op.edge false 70, Op.edge false 7, Op.read 5, Op.stop]
      (nec_start power_on)) 9).ret = 0 ∧
     (nec_read (run [Op.edge true 140, Op.edge false 70, Op.edge false 7, Op.read 5, Op.stop]
      (nec_start power_on)) 9).data = 9) :=
  ⟨by decide, nec_read_not_complete power_on _ 9 (by decide)⟩

/-! ## Accepted edges, phase by phase -/

theorem edge_preamble (s : Decoder) (p : Nat) (hen : int0_enabled s)
    (hs : s.state = NEC_STATE_AGC) (h1 : 120 < p) (h2 : p < 160) :
    edge true p s =
      { s with TCNT0 := 0, TIFR0 := write_TIFR0 s.TIFR0, state := NEC_STATE_GAP } := by
  have hp : to_uint8 p = p := to_uint8_of_lt (by omega)
  unfold edge
  rw [if_pos hen]
  unfold INT0_vect
  simp [pin_high, hp, hs, h1, h2, NEC_TIMING_AGC_MIN, NEC_TIMING_AGC_MAX]

theorem edge_new_gap (s : Decoder) (g : Nat) (hen : int0_enabled s)
    (hs : s.state = NEC_STATE_GAP) (h1 : 60 < g) (h2 : g < 80) :
    edge false g s =
      { s with TCNT0 := 0, TIFR0 := write_TIFR0 s.TIFR0, state := NEC_STATE_BIT } := by
  have hp : to_uint8 g = g := to_uint8_of_lt (by omega)
  unfold edge
  rw [if_pos hen]
  unfold INT0_vect
  simp [pin_low, hp, hs, h1, h2, NEC_TIMING_NEW_MIN, NEC_TIMING_NEW_MAX,
    NEC_STATE_AGC, NEC_STATE_GAP]

theorem edge_repeat_gap (s : Decoder) (g : Nat) (hen : int0_enabled s)
    (hs : s.state = NEC_STATE_GAP) (h1 : 30 < g) (h2 : g < 40) :
    edge false g s =
      { s with TCNT0 := 0, TIFR0 := write_TIFR0 s.TIFR0, state := NEC_STATE_FIN } := by
  have hp : to_uint8 g = g := to_uint8_of_lt (by omega)
  have h3 : ¬ 60 < g := by omega
  unfold edge
  rw [if_pos hen]
  unfold INT0_vect
  simp [pin_low, hp, hs, h1, h2, h3, NEC_TIMING_NEW_MIN, NEC_TIMING_REPEAT_MIN,
    NEC_TIMING_REPEAT_MAX, NEC_STATE_AGC, NEC_STATE_GAP]

theorem edge_stop (s : Decoder) (t : Nat) (hen : int0_enabled s)
    (hs : s.state = NEC_STATE_FIN) :
    edge true t s =
      { s with TCNT0 := 0, TIFR0 := write_TIFR0 s.TIFR0, ready := 1,
               EIMSK := s.EIMSK &&& 254 } := by
  unfold edge
  rw [if_pos hen]
  unfold INT0_vect
  simp [pin_high, hs, not_bv_INT0_uint8, NEC_STATE_AGC, NEC_STATE_GAP, NEC_STATE_BIT,
    NEC_STATE_FIN]

theorem edge_short_bit (s : Decoder) (t : Nat) (hen : int0_enabled s)
    (hs : s.state = NEC_STATE_BIT) (h1 : 5 < t) (h2 : t < 10) :
    edge false t s =
      { s with TCNT0 := 0, TIFR0 := write_TIFR0 s.TIFR0,
               counter := dec_uint8 s.counter,
               buffer := s.buffer ||| int_to_uint32 (int_shl 0 (dec_uint8 s.counter)),
               state := if dec_uint8 s.counter = 0 then NEC_STATE_FIN else NEC_STATE_BIT } := by
  have hp : to_uint8 t = t := to_uint8_of_lt (by omega)
  unfold edge
  rw [if_pos hen]
  unfold INT0_vect
  simp [pin_low, hp, hs, h1, h2, NEC_TIMING_SHORT_MIN, NEC_TIMING_SHORT_MAX,
    NEC_STATE_AGC, NEC_STATE_GAP, NEC_STATE_BIT]

theorem edge_long_bit (s : Decoder) (t : Nat) (hen : int0_enabled s)
    (hs : s.state = NEC_STATE_BIT) (h1 : 20 < t) (h2 : t < 30) :
    edge false t s =
      { s with TCNT0 := 0, TIFR0 := write_TIFR0 s.TIFR0,
               counter := dec_uint8 s.counter,
               buffer := s.buffer ||| int_to_uint32 (int_shl 1 (dec_uint8 s.counter)),
               state := if dec_uint8 s.counter = 0 then NEC_STATE_FIN else NEC_STATE_BIT } := by
  have hp : to_uint8 t = t := to_uint8_of_lt (by omega)
  have h3 : ¬ t < 10 := by omega
  unfold edge
  rw [if_pos hen]
  unfold INT0_vect
  simp [pin_low, hp, hs, h1, h2, h3, NEC_TIMING_SHORT_MAX, NEC_TIMING_LONG_MIN,
    NEC_TIMING_LONG_MAX, NEC_STATE_AGC, NEC_STATE_GAP, NEC_STATE_BIT]

/-! ## Runs of edges after `nec_start` -/

/-- While only edges are handled after `nec_start`, the decoder is either armed with no
result, or finalised: `ready = 1`, phase `NEC_STATE_FIN`, INT0 disabled. -/
theorem armed_or_final_edge (l : Bool) (t : Nat) (s : Decoder)
    (h : (s.ready = 0 ∧ int0_enabled s) ∨
      (s.ready = 1 ∧ s.state = NEC_STATE_FIN ∧ ¬ int0_enabled s)) :
    ((edge l t s).ready = 0 ∧ int0_enabled (edge l t s)) ∨
      ((edge l t s).ready = 1 ∧ (edge l t s).state = NEC_STATE_FIN ∧
        ¬ int0_enabled (edge l t s)) := by
  rcases h with ⟨hr, hen⟩ | ⟨hr, hs, hen⟩
  · rcases edge_cases l t s with ⟨h1, h2⟩ | ⟨_, _, h3, h4, h5, _⟩
    · left
      refine ⟨h1.trans hr, ?_⟩
      rw [int0_enabled_iff, h2]
      exact hen
    · right
      exact ⟨h4, h3, disabled_of_land_254 h5⟩
  · right
    rw [edge_disabled l t s hen]
    exact ⟨hr, hs, hen⟩

theorem armed_or_final_edges (es : List (Bool × Nat)) (s : Decoder)
    (h : (s.ready = 0 ∧ int0_enabled s) ∨
      (s.ready = 1 ∧ s.state = NEC_STATE_FIN ∧ ¬ int0_enabled s)) :
    ((edges es s).ready = 0 ∧ int0_enabled (edges es s)) ∨
      ((edges es s).ready = 1 ∧ (edges es s).state = NEC_STATE_FIN ∧
        ¬ int0_enabled (edges es s)) := by
  induction es generalizing s with
  | nil => exact h
  | cons e es ih =>
    obtain ⟨l, t⟩ := e
    exact ih (edge l t s) (armed_or_final_edge l t s h)

/-- C3 (as stated, refuted): after `nec_start`, a preamble edge and a repeat-code gap edge
the phase is `NEC_STATE_FIN`, and so it is after a preamble edge, a new-data gap edge and
32 bit edges; in both states `nec_read` returns 0 and leaves `*data` as it was. -/
theorem nec_read_complete_pending_stop :
    (edges [(true, 140), (false, 35)] (nec_start power_on)).state = NEC_STATE_FIN ∧
    (nec_read (edges [(true, 140), (false, 35)] (nec_start power_on)) 7).ret = 0 ∧
    (nec_read (edges [(true, 140), (false, 35)] (nec_start power_on)) 7).data = 7 ∧
    (edges ((true, 140) :: (false, 70) :: low_edges (bit_ticks 5 7 25))
      (nec_start power_on)).state = NEC_STATE_FIN ∧
    (nec_read (edges ((true, 140) :: (false, 70) :: low_edges (bit_ticks 5 7 25))
      (nec_start power_on)) 7).ret = 0 := by
  decide

/-- C3 (amended): in every decoder state reached from `nec_start` by handler edges,
`nec_read` returns 1 exactly when `ready` is 1, which is exactly when the phase is
`NEC_STATE_FIN` and the stop edge has been handled (the handler has disabled INT0); when it
returns 1 it stores `buffer` in `*data`, and otherwise it returns 0 and leaves `*data`. -/
theorem nec_read_true_iff_finalised (s0 : Decoder) (es : List (Bool × Nat)) (d : Nat) :
    ((nec_read (edges es (nec_start s0)) d).ret = 1 ↔
      (edges es (nec_start s0)).ready = 1) ∧
    ((edges es (nec_start s0)).ready = 1 ↔
      ((edges es (nec_start s0)).state = NEC_STATE_FIN ∧
        ¬ int0_enabled (edges es (nec_start s0)))) ∧
    ((nec_read (edges es (nec_start s0)) d).ret = 1 →
      (nec_read (edges es (nec_start s0)) d).data = (edges es (nec_start s0)).buffer) ∧
    ((nec_read (edges es (nec_start s0)) d).ret ≠ 1 →
      (nec_read (edges es (nec_start s0)) d).ret = 0 ∧
      (nec_read (edges es (nec_start s0)) d).data = d) := by
  have h := armed_or_final_edges es (nec_start s0) (Or.inl ⟨rfl, nec_start_enabled s0⟩)
  generalize edges es (nec_start s0) = s at h
  rcases h with ⟨hr, hen⟩ | ⟨hr, hs, hen⟩
  · simp [nec_read, hr, hen]
  · simp [nec_read, hr, hs, hen]

/-- C6: from any decoder in phase `NEC_STATE_AGC` with INT0 enabled, a high edge with
`120 < p < 160` followed by a low edge with `30 < g < 40` gives phase `NEC_STATE_FIN` with
`buffer` and `counter` as before the two edges; directly after `nec_start`, one more high
edge (any tick) makes `nec_read` return 1 with value 0. -/
theorem repeat_code_completes (s : Decoder) (p g : Nat)
    (hs : s.state = NEC_STATE_AGC) (hen : int0_enabled s)
    (hp1 : 120 < p) (hp2 : p < 160) (hg1 : 30 < g) (hg2 : g < 40) :
    (edges [(true, p), (false, g)] s).state = NEC_STATE_FIN ∧
    (edges [(true, p), (false, g)] s).buffer = s.buffer ∧
    (edges [(true, p), (false, g)] s).counter = s.counter ∧
    (∀ (s0 : Decoder) (t d : Nat),
      (nec_read (edges [(true, p), (false, g), (true, t)] (nec_start s0)) d).ret = 1 ∧
      (nec_read (edges [(true, p), (false, g), (true, t)] (nec_start s0)) d).data = 0) := by
  have two : ∀ (u : Decoder), u.state = NEC_STATE_AGC → int0_enabled u →
      edge false g (edge true p u) =
        { u with TCNT0 := 0, TIFR0 := write_TIFR0 (write_TIFR0 u.TIFR0),
                 state := NEC_STATE_FIN } := by
    intro u hu huen
    rw [edge_preamble u p huen hu hp1 hp2]
    exact edge_repeat_gap
      { u with TCNT0 := 0, TIFR0 := write_TIFR0 u.TIFR0, state := NEC_STATE_GAP }
      g huen rfl hg1 hg2
  refine ⟨?_, ?_, ?_, ?_⟩
  · simp only [edges, two s hs hen]
  · simp only [edges, two s hs hen]
  · simp only [edges, two s hs hen]
  · intro s0 t d
    simp only [edges, two (nec_start s0) rfl (nec_start_enabled s0)]
    rw [edge_stop]
    · simp [nec_read, nec_start]
    · exact nec_start_enabled s0
    · rfl

theorem repeat_code_completes_witness :
    (edges [(true, 140), (false, 35)] (nec_start power_on)).state = NEC_STATE_FIN ∧
    (edges [(true, 140), (false, 35)] (nec_start power_on)).counter = 32 ∧
    (nec_read (edges [(true, 140), (false, 35), (true, 9)] (nec_start power_on)) 77).ret = 1 ∧
    (nec_read (edges [(true, 140), (false, 35), (true, 9)] (nec_start power_on)) 77).data = 0 :=
  have h := repeat_code_completes (nec_start power_on) 140 35
    (by decide) (by decide) (by decide) (by decide) (by decide) (by decide)
  ⟨h.1, h.2.2.1, h.2.2.2 power_on 9 77⟩

/-- C7: while the INT0 interrupt is disabled, no sequence of edges changes the decoder:
`buffer`, `counter`, `state` and `ready` are as before and `nec_read` gives the same flag
and the same `*data`; `nec_stop` and the finalising stop edge both leave it disabled, and a
decoder that was not ready when `nec_stop` was called is never made ready by edges. -/
theorem disabled_decoder_frozen (s : Decoder) (es : List (Bool × Nat)) (d : Nat)
    (h : ¬ int0_enabled s) :
    edges es s = s ∧
    (edges es s).buffer = s.buffer ∧ (edges es s).counter = s.counter ∧
    (edges es s).state = s.state ∧ (edges es s).ready = s.ready ∧
    (nec_read (edges es s) d).ret = (nec_read s d).ret ∧
    (nec_read (edges es s) d).data = (nec_read s d).data ∧
    (∀ u : Decoder, edges es (nec_stop u) = nec_stop u ∧
      (u.ready = 0 → (nec_read (edges es (nec_stop u)) d).ret = 0)) ∧
    (∀ (u : Decoder) (t : Nat), int0_enabled u → u.state = NEC_STATE_FIN →
      edges es (edge true t u) = edge true t u ∧ (edge true t u).ready = 1) := by
  have hs := edges_disabled es s h
  refine ⟨hs, ?_, ?_, ?_, ?_, ?_, ?_, ?_, ?_⟩
  · rw [hs]
  · rw [hs]
  · rw [hs]
  · rw [hs]
  · rw [hs]
  · rw [hs]
  · intro u
    rw [edges_disabled es (nec_stop u) (nec_stop_disabled u)]
    refine ⟨rfl, ?_⟩
    intro hu
    simp [nec_read, nec_stop, hu]
  · intro u t hu hfin
    have hd : ¬ int0_enabled (edge true t u) := by
      rw [edge_stop u t hu hfin]
      exact disabled_of_land_254 rfl
    refine ⟨edges_disabled es _ hd, ?_⟩
    rw [edge_stop u t hu hfin]

theorem disabled_decoder_frozen_witness :
    ¬ int0_enabled (nec_stop (nec_start power_on)) ∧
    edges [(true, 140), (false, 35), (true, 9)] (nec_stop (nec_start power_on))
      = nec_stop (nec_start power_on) :=
  ⟨by decide,
    (disabled_decoder_frozen (nec_stop (nec_start power_on))
      [(true, 140), (false, 35), (true, 9)] 0 (by decide)).1⟩

/-! ## Independence of a capture from what preceded `nec_start` -/

theorem same_decoder_start (s1 s2 : Decoder) : same_decoder (nec_start s1) (nec_start s2) :=
  ⟨rfl, rfl, rfl, rfl, iff_of_true (nec_start_enabled s1) (nec_start_enabled s2)⟩

theorem same_decoder_INT0_vect (P t1 t2 : Nat) (s1 s2 : Decoder) (ht : t1 = t2)
    (h : same_decoder s1 s2) :
    same_decoder (INT0_vect P { s1 with TCNT0 := t1 }) (INT0_vect P { s2 with TCNT0 := t2 }) := by
  obtain ⟨hb, hr, hc, hs, he⟩ := h
  subst ht
  obtain ⟨b1, r1, c1, st1, e1, x1, y1⟩ := s1
  obtain ⟨b2, r2, c2, st2, e2, x2, y2⟩ := s2
  simp only at hb hr hc hs
  subst hb hr hc hs
  simp only [int0_enabled_iff] at he
  simp only [INT0_vect, same_decoder, not_bv_INT0_uint8, int0_enabled_iff]
  generalize to_uint8 (P &&& _BV PD2) = pin
  generalize to_uint8 t1 = tau
  simp only [ne_eq, not_true_eq_false, false_and, if_false]
  split_ifs
  all_goals simp only [land_254_land_one, true_and, and_self, he]

theorem same_decoder_edge (l : Bool) (t : Nat) (s1 s2 : Decoder) (h : same_decoder s1 s2) :
    same_decoder (edge l t s1) (edge l t s2) := by
  unfold edge
  by_cases h1 : int0_enabled s1
  · rw [if_pos h1, if_pos (h.2.2.2.2.mp h1)]
    exact same_decoder_INT0_vect _ t t s1 s2 rfl h
  · rw [if_neg h1, if_neg (fun h2 => h1 (h.2.2.2.2.mpr h2))]
    exact h

theorem same_decoder_edges (es : List (Bool × Nat)) (s1 s2 : Decoder)
    (h : same_decoder s1 s2) : same_decoder (edges es s1) (edges es s2) := by
  induction es generalizing s1 s2 with
  | nil => exact h
  | cons e es ih =>
    obtain ⟨l, t⟩ := e
    exact ih _ _ (same_decoder_edge l t s1 s2 h)

/-- C10: for any two decoder states `s1`, `s2` and any finite edge sequence `es`, handling
`es` after `nec_start` from `s1` and after `nec_start` from `s2` gives the same `buffer`,
`counter`, `state` and `ready`, and `nec_read` then gives the same flag and the same
`*data`: a capture does not depend on what was held before the re-arm. -/
theorem rearm_independent (s1 s2 : Decoder) (es : List (Bool × Nat)) (d : Nat) :
    (edges es (nec_start s1)).buffer = (edges es (nec_start s2)).buffer ∧
    (edges es (nec_start s1)).counter = (edges es (nec_start s2)).counter ∧
    (edges es (nec_start s1)).state = (edges es (nec_start s2)).state ∧
    (edges es (nec_start s1)).ready = (edges es (nec_start s2)).ready ∧
    (nec_read (edges es (nec_start s1)) d).ret = (nec_read (edges es (nec_start s2)) d).ret ∧
    (nec_read (edges es (nec_start s1)) d).data
      = (nec_read (edges es (nec_start s2)) d).data := by
  obtain ⟨hb, hr, hc, hs, _⟩ :=
    same_decoder_edges es _ _ (same_decoder_start s1 s2)
  refine ⟨hb, hc, hs, hr, ?_, ?_⟩
  · simp only [nec_read, hr]
    split <;> rfl
  · simp only [nec_read, hr, hb]
    split <;> rfl

/-! ## Partial captures and rejected edges -/

theorem dec_uint8_pos {c : Nat} (h1 : 1 ≤ c) (h2 : c ≤ 256) : dec_uint8 c = c - 1 := by
  unfold dec_uint8; omega

/-- An edge that matches no row of the table leaves everything but the phase (and the two
timer registers) alone and sets the phase to `NEC_STATE_AGC`: here for phase
`NEC_STATE_BIT` and a tick outside both bit windows, at either level. -/
theorem edge_reject_bit (s : Decoder) (l : Bool) (t : Nat) (hen : int0_enabled s)
    (hs : s.state = NEC_STATE_BIT) (ht : t < 256) (hbad : ¬ accepted_bit t) :
    edge l t s =
      { s with TCNT0 := 0, TIFR0 := write_TIFR0 s.TIFR0, state := NEC_STATE_AGC } := by
  have hp : to_uint8 t = t := to_uint8_of_lt ht
  simp only [accepted_bit, NEC_TIMING_SHORT_MIN, NEC_TIMING_SHORT_MAX, NEC_TIMING_LONG_MIN,
    NEC_TIMING_LONG_MAX, not_or] at hbad
  unfold edge
  rw [if_pos hen]
  unfold INT0_vect
  simp [hp, hs, hbad, NEC_TIMING_SHORT_MIN, NEC_TIMING_SHORT_MAX, NEC_TIMING_LONG_MIN,
    NEC_TIMING_LONG_MAX, NEC_STATE_AGC, NEC_STATE_GAP, NEC_STATE_BIT, NEC_STATE_FIN]

/-- From phase `NEC_STATE_AGC` one handler step leads to `NEC_STATE_AGC` or
`NEC_STATE_GAP`. -/
theorem edge_from_AGC (s : Decoder) (l : Bool) (t : Nat) (hs : s.state = NEC_STATE_AGC) :
    (edge l t s).state = NEC_STATE_AGC ∨ (edge l t s).state = NEC_STATE_GAP := by
  unfold edge
  split
  · unfold INT0_vect
    simp only [hs, NEC_STATE_AGC, NEC_STATE_GAP, NEC_STATE_BIT, NEC_STATE_FIN]
    split_ifs <;> simp_all
  · exact Or.inl hs

/-- An accepted bit edge while more than one bit is outstanding: the phase stays
`NEC_STATE_BIT`, `counter` drops by one, `ready` and `EIMSK` are untouched. -/
theorem edge_bit_partial (s : Decoder) (t : Nat) (hen : int0_enabled s)
    (hs : s.state = NEC_STATE_BIT) (hacc : accepted_bit t)
    (h1 : 2 ≤ s.counter) (h2 : s.counter ≤ 32) :
    (edge false t s).state = NEC_STATE_BIT ∧ (edge false t s).counter = s.counter - 1 ∧
    (edge false t s).ready = s.ready ∧ (edge false t s).EIMSK = s.EIMSK := by
  have hd : dec_uint8 s.counter = s.counter - 1 := dec_uint8_pos (by omega) (by omega)
  have hne : ¬ s.counter - 1 = 0 := by omega
  rcases hacc with ⟨a, b⟩ | ⟨a, b⟩
  · rw [edge_short_bit s t hen hs a b]
    simp [hd, hne]
  · rw [edge_long_bit s t hen hs a b]
    simp [hd, hne]

theorem bit_run_partial (ts : List Nat) (s : Decoder) (hen : int0_enabled s)
    (hs : s.state = NEC_STATE_BIT) (hacc : ∀ t ∈ ts, accepted_bit t)
    (h1 : ts.length < s.counter) (h2 : s.counter ≤ 32) :
    (edges (low_edges ts) s).state = NEC_STATE_BIT ∧
    (edges (low_edges ts) s).counter = s.counter - ts.length ∧
    (edges (low_edges ts) s).ready = s.ready ∧
    (edges (low_edges ts) s).EIMSK = s.EIMSK := by
  induction ts generalizing s with
  | nil => exact ⟨hs, rfl, rfl, rfl⟩
  | cons t ts ih =>
    simp only [List.length_cons] at h1
    obtain ⟨e1, e2, e3, e4⟩ :=
      edge_bit_partial s t hen hs (hacc t (List.mem_cons_self t ts)) (by omega) h2
    have hen2 : int0_enabled (edge false t s) := by
      rw [int0_enabled_iff, e4]; exact hen
    obtain ⟨i1, i2, i3, i4⟩ :=
      ih (edge false t s) hen2 e1 (fun u hu => hacc u (List.mem_cons_of_mem t hu))
        (by omega) (by omega)
    simp only [low_edges, List.map_cons, edges, List.length_cons]
    simp only [low_edges] at i1 i2 i3 i4
    refine ⟨i1, ?_, i3.trans e3, i4.trans e4⟩
    rw [i2, e2]
    omega

/-- The decoder after `nec_start`, an in-window preamble, an in-window new-data gap and
fewer than 32 accepted bit edges. -/
theorem partial_capture (s0 : Decoder) (p g : Nat) (ts : List Nat)
    (hp1 : 120 < p) (hp2 : p < 160) (hg1 : 60 < g) (hg2 : g < 80)
    (hacc : ∀ t ∈ ts, accepted_bit t) (hk : ts.length < 32) :
    (edges ((true, p) :: (false, g) :: low_edges ts) (nec_start s0)).state = NEC_STATE_BIT ∧
    (edges ((true, p) :: (false, g) :: low_edges ts) (nec_start s0)).counter
      = 32 - ts.length ∧
    (edges ((true, p) :: (false, g) :: low_edges ts) (nec_start s0)).ready = 0 ∧
    int0_enabled (edges ((true, p) :: (false, g) :: low_edges ts) (nec_start s0)) := by
  have hen := nec_start_enabled s0
  simp only [edges]
  rw [edge_preamble (nec_start s0) p hen rfl hp1 hp2]
  rw [edge_new_gap _ g ?_ ?_ hg1 hg2]
  · obtain ⟨i1, i2, i3, i4⟩ :=
      bit_run_partial ts
        { nec_start s0 with TCNT0 := 0,
                            TIFR0 := write_TIFR0 (write_TIFR0 (nec_start s0).TIFR0),
                            state := NEC_STATE_BIT }
        hen rfl hacc hk (le_refl 32)
    refine ⟨i1, i2, i3, ?_⟩
    rw [int0_enabled_iff, i4]
    exact hen
  · exact hen
  · rfl

/-- In phase `NEC_STATE_AGC` with no result, fewer than three edges give no result. -/
theorem not_ready_before_three (es : List (Bool × Nat)) (s : Decoder)
    (hs : s.state = NEC_STATE_AGC) (hr : s.ready = 0) (hlen : es.length < 3) :
    (edges es s).ready = 0 := by
  have one : ∀ (u : Decoder) (l : Bool) (t : Nat), u.ready = 0 →
      u.state ≠ NEC_STATE_FIN → (edge l t u).ready = 0 := by
    intro u l t hu hne
    rcases edge_cases l t u with ⟨h1, _⟩ | ⟨_, h2, _⟩
    · exact h1.trans hu
    · exact absurd h2 hne
  match es, hlen with
  | [], _ => exact hr
  | [(l, t)], _ =>
    simp only [edges]
    exact one s l t hr (by rw [hs]; decide)
  | [(l, t), (l2, t2)], _ =>
    simp only [edges]
    have h1 := one s l t hr (by rw [hs]; decide)
    refine one _ l2 t2 h1 ?_
    rcases edge_from_AGC s l t hs with h | h <;> rw [h] <;> decide
  | _ :: _ :: _ :: _, h => exact absurd h (by simp)

/-- C5 (as stated, refuted): after `nec_start`, a preamble, a new-data gap and an
out-of-window low edge of 15 ticks, the three edges preamble, repeat-code gap, stop make
`nec_read` return 1: far fewer than a preamble, a gap, 32 bit edges and a stop edge. -/
theorem three_edges_after_reject :
    ¬ accepted_bit 15 ∧
    (edges [(true, 140), (false, 70), (false, 15)] (nec_start power_on)).state
      = NEC_STATE_AGC ∧
    (nec_read (edges [(true, 140), (false, 35), (true, 0)]
      (edges [(true, 140), (false, 70), (false, 15)] (nec_start power_on))) 7).ret = 1 ∧
    [(true, 140), (false, 35), ((true, 0) : Bool × Nat)].length < 35 := by
  decide

/-- C5 (amended): after `nec_start`, an in-window preamble, an in-window new-data gap and
`k < 32` accepted bit edges, an edge at either level whose tick (below 256) lies outside
both bit windows puts the phase back to `NEC_STATE_AGC` with `ready = 0` and INT0 still
enabled; from there no sequence of fewer than three edges makes `nec_read` return 1, and a
preamble edge, a repeat-code gap edge and a stop edge do make it return 1. -/
theorem reject_restarts_capture (s0 : Decoder) (p g : Nat) (ts : List Nat) (l : Bool) (t : Nat)
    (hp1 : 120 < p) (hp2 : p < 160) (hg1 : 60 < g) (hg2 : g < 80)
    (hacc : ∀ u ∈ ts, accepted_bit u) (hk : ts.length < 32)
    (ht : t < 256) (hbad : ¬ accepted_bit t) :
    (edge l t (edges ((true, p) :: (false, g) :: low_edges ts) (nec_start s0))).state
      = NEC_STATE_AGC ∧
    (edge l t (edges ((true, p) :: (false, g) :: low_edges ts) (nec_start s0))).ready = 0 ∧
    int0_enabled (edge l t (edges ((true, p) :: (false, g) :: low_edges ts) (nec_start s0))) ∧
    (∀ (es : List (Bool × Nat)) (d : Nat), es.length < 3 →
      (nec_read (edges es
        (edge l t (edges ((true, p) :: (false, g) :: low_edges ts) (nec_start s0)))) d).ret
        = 0) ∧
    (∀ (p2 g2 t2 d : Nat), 120 < p2 → p2 < 160 → 30 < g2 → g2 < 40 →
      (nec_read (edges [(true, p2), (false, g2), (true, t2)]
        (edge l t (edges ((true, p) :: (false, g) :: low_edges ts) (nec_start s0)))) d).ret
        = 1) := by
  obtain ⟨c1, _, c3, c4⟩ := partial_capture s0 p g ts hp1 hp2 hg1 hg2 hacc hk
  generalize edges ((true, p) :: (false, g) :: low_edges ts) (nec_start s0) = s at c1 c3 c4
  rw [edge_reject_bit s l t c4 c1 ht hbad]
  refine ⟨rfl, c3, c4, ?_, ?_⟩
  · intro es d hlen
    have h := not_ready_before_three es
      { s with TCNT0 := 0, TIFR0 := write_TIFR0 s.TIFR0, state := NEC_STATE_AGC }
      rfl c3 hlen
    simp only [nec_read, h]
    rfl
  · intro p2 g2 t2 d a1 a2 b1 b2
    simp only [edges]
    rw [edge_preamble _ p2 ?_ ?_ a1 a2]
    · rw [edge_repeat_gap _ g2 ?_ ?_ b1 b2]
      · rw [edge_stop _ t2 ?_ ?_]
        · simp [nec_read]
        · exact c4
        · rfl
      · exact c4
      · rfl
    · exact c4
    · rfl

theorem reject_restarts_capture_witness :
    (edge false 15 (edges ((true, 140) :: (false, 70) :: low_edges [7, 25, 7])
      (nec_start power_on))).state = NEC_STATE_AGC ∧
    (nec_read (edges [(true, 140), (false, 70)]
      (edge false 15 (edges ((true, 140) :: (false, 70) :: low_edges [7, 25, 7])
        (nec_start power_on)))) 3).ret = 0 :=
  have h := reject_restarts_capture power_on 140 70 [7, 25, 7] false 15
    (by decide) (by decide) (by decide) (by decide) (by decide) (by decide)
    (by decide) (by decide)
  ⟨h.1, h.2.2.2.1 [(true, 140), (false, 70)] 3 (by decide)⟩

/-- The rejected edge resets only `state`: `counter` and `buffer` keep the progress of the
abandoned capture. After 31 accepted bits and a rejected edge, a preamble, a new-data gap,
one bit edge and a stop edge already make `nec_read` return 1; after one accepted bit and a
rejected edge, a complete fresh frame does not make it return 1. -/
theorem stale_counter_after_reject :
    (nec_read (edges [(true, 140), (false, 70), (false, 25), (true, 0)]
      (edges ((true, 140) :: (false, 70) :: low_edges (List.replicate 31 7) ++ [(false, 15)])
        (nec_start power_on))) 7).ret = 1 ∧
    (edges ((true, 140) :: (false, 70) :: low_edges [7] ++ [(false, 15)])
        (nec_start power_on)).counter = 31 ∧
    (nec_read (edges (frame 140 70 (bit_ticks 5 7 25) 0)
      (edges ((true, 140) :: (false, 70) :: low_edges [7] ++ [(false, 15)])
        (nec_start power_on))) 7).ret = 0 := by
  decide

/-! ## What a well-formed frame decodes to -/

/-- A bit edge whose tick encodes bit `i` of `v`. -/
theorem edge_encoded_bit (s : Decoder) (v i t : Nat) (hen : int0_enabled s)
    (hs : s.state = NEC_STATE_BIT)
    (ht : if v.testBit i then NEC_TIMING_LONG_MIN < t ∧ t < NEC_TIMING_LONG_MAX
      else NEC_TIMING_SHORT_MIN < t ∧ t < NEC_TIMING_SHORT_MAX) :
    edge false t s =
      { s with TCNT0 := 0, TIFR0 := write_TIFR0 s.TIFR0,
               counter := dec_uint8 s.counter,
               buffer := s.buffer |||
                 int_to_uint32 (int_shl (if v.testBit i then 1 else 0) (dec_uint8 s.counter)),
               state := if dec_uint8 s.counter = 0 then NEC_STATE_FIN else NEC_STATE_BIT } := by
  by_cases hb : v.testBit i
  · simp only [hb, if_true] at ht ⊢
    exact edge_long_bit s t hen hs ht.1 ht.2
  · simp only [hb] at ht ⊢
    exact edge_short_bit s t hen hs ht.1 ht.2

theorem bit_run_full (v : Nat) (ts : List Nat) (s : Decoder) (hen : int0_enabled s)
    (hs : s.state = NEC_STATE_BIT) (hc : s.counter = ts.length)
    (h1 : 1 ≤ ts.length) (h2 : ts.length ≤ 32) (henc : encodes v ts.length ts) :
    (edges (low_edges ts) s).state = NEC_STATE_FIN ∧
    (edges (low_edges ts) s).counter = 0 ∧
    (edges (low_edges ts) s).ready = s.ready ∧
    (edges (low_edges ts) s).EIMSK = s.EIMSK ∧
    (edges (low_edges ts) s).buffer = s.buffer ||| accumulated v ts.length := by
  induction ts generalizing s with
  | nil => simp at h1
  | cons t ts ih =>
    simp only [List.length_cons] at hc h2 henc
    simp only [encodes, Nat.add_sub_cancel] at henc
    have hd : dec_uint8 s.counter = ts.length := by
      rw [dec_uint8_pos (by omega) (by omega), hc]
      rfl
    have he := edge_encoded_bit s v ts.length t hen hs henc.1
    rw [hd] at he
    simp only [low_edges, List.map_cons, edges, List.length_cons, accumulated]
    rw [he]
    cases ts with
    | nil =>
      simp [edges, accumulated]
    | cons t2 ts2 =>
      have hne : ¬ (t2 :: ts2).length = 0 := by simp
      simp only [if_neg hne]
      obtain ⟨i1, i2, i3, i4, i5⟩ :=
        ih { s with TCNT0 := 0, TIFR0 := write_TIFR0 s.TIFR0,
                    counter := (t2 :: ts2).length,
                    buffer := s.buffer |||
                      int_to_uint32 (int_shl (if v.testBit (t2 :: ts2).length then 1 else 0)
                        (t2 :: ts2).length),
                    state := NEC_STATE_BIT }
          hen rfl rfl (by simp) (by omega) henc.2
      simp only [low_edges] at i1 i2 i3 i4 i5
      refine ⟨i1, i2, i3, i4, ?_⟩
      rw [i5, Nat.or_assoc]

theorem mask_below_sign (n : Nat) (h : n < 15) : int_to_uint32 (int_shl 1 n) = 2 ^ n := by
  interval_cases n <;> decide

theorem mask_zero (n : Nat) : int_to_uint32 (int_shl 0 n) = 0 := by
  simp [int_shl, int_to_uint32, to_uint32, INT_BITS]

theorem mod_two_pow_succ_eq_lor (v n : Nat) :
    v % 2 ^ (n + 1) = (if v.testBit n then 2 ^ n else 0) ||| v % 2 ^ n := by
  apply Nat.eq_of_testBit_eq
  intro i
  by_cases hb : v.testBit n
  · simp only [hb, if_true, Nat.testBit_or, Nat.testBit_mod_two_pow, Nat.testBit_two_pow]
    by_cases h1 : i < n
    · have h2 : ¬ n = i := by omega
      simp [h1, h2, show i < n + 1 by omega]
    · by_cases h3 : n = i
      · subst h3
        simp [hb]
      · simp [h1, h3, show ¬ i < n + 1 by omega]
  · simp only [hb, Nat.testBit_or, Nat.testBit_mod_two_pow, Nat.zero_testBit]
    by_cases h1 : i < n
    · simp [h1, show i < n + 1 by omega]
    · by_cases h3 : n = i
      · subst h3
        simp [hb]
      · simp [h1, show ¬ i < n + 1 by omega]

/-- Below the sign bit of `int` the accumulated masks rebuild the value. -/
theorem accumulated_eq_mod (v n : Nat) (hv : v < 2 ^ 15) : accumulated v n = v % 2 ^ n := by
  induction n with
  | zero => simp [accumulated, Nat.mod_one]
  | succ n ih =>
    rw [accumulated, ih, mod_two_pow_succ_eq_lor]
    by_cases hn : n < 15
    · by_cases hb : v.testBit n
      · simp only [hb, if_true, mask_below_sign n hn]
      · simp [hb, mask_zero]
    · have hb : v.testBit n = false := by
        apply Nat.testBit_lt_two_pow
        calc v < 2 ^ 15 := hv
          _ ≤ 2 ^ n := Nat.pow_le_pow_right (by norm_num) (by omega)
      simp [hb, mask_zero]

theorem edges_append (xs ys : List (Bool × Nat)) (u : Decoder) :
    edges (xs ++ ys) u = edges ys (edges xs u) := by
  induction xs generalizing u with
  | nil => rfl
  | cons x xs ih =>
    obtain ⟨l, t⟩ := x
    simp only [List.cons_append, edges]
    exact ih (edge l t u)

/-- The decoder after `nec_start`, an in-window preamble and an in-window new-data gap. -/
theorem header_run (s0 : Decoder) (p g : Nat)
    (hp1 : 120 < p) (hp2 : p < 160) (hg1 : 60 < g) (hg2 : g < 80) :
    (edges [(true, p), (false, g)] (nec_start s0)).state = NEC_STATE_BIT ∧
    (edges [(true, p), (false, g)] (nec_start s0)).counter = 32 ∧
    (edges [(true, p), (false, g)] (nec_start s0)).buffer = 0 ∧
    (edges [(true, p), (false, g)] (nec_start s0)).ready = 0 ∧
    int0_enabled (edges [(true, p), (false, g)] (nec_start s0)) := by
  have hen := nec_start_enabled s0
  simp only [edges]
  rw [edge_preamble (nec_start s0) p hen rfl hp1 hp2]
  rw [edge_new_gap _ g ?_ ?_ hg1 hg2]
  · exact ⟨rfl, rfl, rfl, rfl, hen⟩
  · exact hen
  · rfl

/-- The decoder on a well-formed frame: after `nec_start`, an in-window preamble, an
in-window new-data gap, 32 bit edges encoding `v` and a stop edge, `nec_read` returns 1
and stores the disjunction of the masks the handler built. -/
theorem frame_accumulates (s0 : Decoder) (v p g : Nat) (ts : List Nat) (stop d : Nat)
    (hp1 : 120 < p) (hp2 : p < 160) (hg1 : 60 < g) (hg2 : g < 80)
    (hlen : ts.length = 32) (henc : encodes v 32 ts) :
    (nec_read (edges (frame p g ts stop) (nec_start s0)) d).ret = 1 ∧
    (nec_read (edges (frame p g ts stop) (nec_start s0)) d).data = accumulated v 32 := by
  have hsplit : edges (frame p g ts stop) (nec_start s0) =
      edge true stop (edges (low_edges ts) (edges [(true, p), (false, g)] (nec_start s0))) := by
    simp only [frame, edges]
    exact edges_append (low_edges ts) [(true, stop)] _
  obtain ⟨a1, a2, a3, a4, a5⟩ := header_run s0 p g hp1 hp2 hg1 hg2
  rw [hsplit]
  generalize edges [(true, p), (false, g)] (nec_start s0) = X at a1 a2 a3 a4 a5
  obtain ⟨i1, _, i3, i4, i5⟩ :=
    bit_run_full v ts X a5 a1 (by rw [a2, hlen]) (by omega) (by omega)
      (by rw [hlen]; exact henc)
  have hen2 : int0_enabled (edges (low_edges ts) X) := by
    rw [int0_enabled_iff, i4]
    exact a5
  rw [edge_stop _ stop hen2 i1]
  simp [nec_read, i5, a3, hlen]

/-- For values below `2 ^ 15` a well-formed frame is decoded exactly. -/
theorem frame_decodes_below_sign_bit (s0 : Decoder) (v p g : Nat) (ts : List Nat)
    (stop d : Nat) (hv : v < 2 ^ 15)
    (hp1 : 120 < p) (hp2 : p < 160) (hg1 : 60 < g) (hg2 : g < 80)
    (hlen : ts.length = 32) (henc : encodes v 32 ts) :
    (nec_read (edges (frame p g ts stop) (nec_start s0)) d).ret = 1 ∧
    (nec_read (edges (frame p g ts stop) (nec_start s0)) d).data = v := by
  obtain ⟨h1, h2⟩ := frame_accumulates s0 v p g ts stop d hp1 hp2 hg1 hg2 hlen henc
  refine ⟨h1, ?_⟩
  rw [h2, accumulated_eq_mod v 32 hv]
  exact Nat.mod_eq_of_lt (lt_of_lt_of_le hv (by norm_num))

/-! ## A complete frame -/

/-- C1 (the code at a failing input): the frame `140, 70, bit_ticks 32768 7 25, 0` is
well-formed for the value `32768 = 0x00008000` (32 ticks, long exactly at bit 15); after
`nec_start` and its 35 edges `nec_read` returns 1 but stores `4294934528 = 0xFFFF8000`,
because `1 << 15` is negative at the 16-bit width of `int` and is sign-extended by the
conversion to `uint32_t`. For `2147483648 = 0x80000000` the value stored is 0. -/
theorem frame_bit15_sign_extended :
    encodes 32768 32 (bit_ticks 32768 7 25) ∧ (bit_ticks 32768 7 25).length = 32 ∧
    (nec_read (edges (frame 140 70 (bit_ticks 32768 7 25) 0) (nec_start power_on)) 0).ret = 1 ∧
    (nec_read (edges (frame 140 70 (bit_ticks 32768 7 25) 0) (nec_start power_on)) 0).data
      = 4294934528 ∧
    (nec_read (edges (frame 140 70 (bit_ticks 32768 7 25) 0) (nec_start power_on)) 0).data
      ≠ 32768 ∧
    encodes 2147483648 32 (bit_ticks 2147483648 7 25) ∧
    (nec_read (edges (frame 140 70 (bit_ticks 2147483648 7 25) 0) (nec_start power_on)) 1).data
      = 0 := by
  decide

/-! ## The classification table, row by row -/

/-- An edge that matches no row of the specification's table for the current phase: the
handler falls through every test and only assigns `state = NEC_STATE_AGC`. -/
theorem edge_unmatched (s : Decoder) (l : Bool) (t : Nat) (hen : int0_enabled s)
    (ht : t < 256) (h : ¬ spec_table_row s.state l t) :
    edge l t s =
      { s with TCNT0 := 0, TIFR0 := write_TIFR0 s.TIFR0, state := NEC_STATE_AGC } := by
  have hp : to_uint8 t = t := to_uint8_of_lt ht
  simp only [spec_table_row, not_or, not_and, NEC_STATE_AGC, NEC_STATE_GAP, NEC_STATE_BIT,
    NEC_STATE_FIN] at h
  obtain ⟨r1, r2, r3, r4, r5, r6⟩ := h
  unfold edge
  rw [if_pos hen]
  obtain ⟨b, r, c, st, e, tc, tf⟩ := s
  simp only at r1 r2 r3 r4 r5 r6
  simp only [INT0_vect, NEC_STATE_AGC, NEC_STATE_GAP, NEC_STATE_BIT, NEC_STATE_FIN,
    NEC_TIMING_AGC_MIN,
    NEC_TIMING_AGC_MAX, NEC_TIMING_NEW_MIN, NEC_TIMING_NEW_MAX, NEC_TIMING_REPEAT_MIN,
    NEC_TIMING_REPEAT_MAX, NEC_TIMING_SHORT_MIN, NEC_TIMING_SHORT_MAX, NEC_TIMING_LONG_MIN,
    NEC_TIMING_LONG_MAX, hp, ne_eq, not_true_eq_false, false_and, if_false, gt_iff_lt]
  cases l
  · simp only [pin_low, not_true_eq_false, false_and, and_false, if_false, true_and]
    split_ifs
    all_goals first | rfl | (exfalso; clear hen hp; simp_all)
  · have hh := pin_high
    generalize to_uint8 (pind_of true &&& _BV PD2) = pin at hh
    simp only [hh, not_false_eq_true, true_and, false_and, and_false, if_false]
    split_ifs
    all_goals first | rfl | (exfalso; clear hen hp; simp_all)

/-- C11: for an armed decoder in phase `NEC_STATE_AGC` and a tick `t` in 0..255, a
high-level edge with `120 < t < 160` moves the phase to `NEC_STATE_GAP`, a high-level edge
with `t ≤ 120` or `160 ≤ t` leaves it at `NEC_STATE_AGC`; either way `buffer`, `counter`
and `ready` are unchanged. -/
theorem preamble_window (s : Decoder) (t : Nat) (hen : int0_enabled s)
    (hs : s.state = NEC_STATE_AGC) (ht : t < 256) :
    ((120 < t ∧ t < 160) → (edge true t s).state = NEC_STATE_GAP) ∧
    ((t ≤ 120 ∨ 160 ≤ t) → (edge true t s).state = NEC_STATE_AGC) ∧
    (edge true t s).buffer = s.buffer ∧ (edge true t s).counter = s.counter ∧
    (edge true t s).ready = s.ready := by
  by_cases hw : 120 < t ∧ t < 160
  · rw [edge_preamble s t hen hs hw.1 hw.2]
    refine ⟨fun _ => rfl, fun h => ?_, rfl, rfl, rfl⟩
    omega
  · have hno : ¬ spec_table_row s.state true t := by
      simp only [spec_table_row, hs, NEC_STATE_AGC, NEC_STATE_GAP, NEC_STATE_BIT,
        NEC_STATE_FIN]
      omega
    rw [edge_unmatched s true t hen ht hno]
    exact ⟨fun h => absurd h hw, fun _ => rfl, rfl, rfl, rfl⟩

theorem preamble_window_witness :
    (edge true 121 (nec_start power_on)).state = NEC_STATE_GAP ∧
    (edge true 120 (nec_start power_on)).state = NEC_STATE_AGC ∧
    (edge true 160 (nec_start power_on)).state = NEC_STATE_AGC :=
  ⟨(preamble_window (nec_start power_on) 121 (by decide) (by decide) (by decide)).1
      (by decide),
    (preamble_window (nec_start power_on) 120 (by decide) (by decide) (by decide)).2.1
      (by decide),
    (preamble_window (nec_start power_on) 160 (by decide) (by decide) (by decide)).2.1
      (by decide)⟩

/-- C13: for an armed decoder and an edge `(level, tau)`, `tau` in 0..255, that matches no
row of the specification's table for the current phase, the handler sets the phase to
`NEC_STATE_AGC` and leaves `buffer`, `counter`, `ready` and `EIMSK` (so the interrupt
enable) unchanged; a low-level edge in phase `NEC_STATE_FIN` matches no row. -/
theorem unmatched_edge_resets_phase (s : Decoder) (l : Bool) (t : Nat)
    (hen : int0_enabled s) (ht : t < 256) (h : ¬ spec_table_row s.state l t) :
    (edge l t s).state = NEC_STATE_AGC ∧ (edge l t s).buffer = s.buffer ∧
    (edge l t s).counter = s.counter ∧ (edge l t s).ready = s.ready ∧
    (edge l t s).EIMSK = s.EIMSK ∧ int0_enabled (edge l t s) ∧
    (∀ u : Nat, ¬ spec_table_row NEC_STATE_FIN false u) := by
  rw [edge_unmatched s l t hen ht h]
  refine ⟨rfl, rfl, rfl, rfl, rfl, hen, ?_⟩
  intro u
  simp [spec_table_row, NEC_STATE_AGC, NEC_STATE_GAP, NEC_STATE_BIT, NEC_STATE_FIN]

theorem unmatched_edge_resets_phase_witness :
    (edges [(true, 140), (false, 35)] (nec_start power_on)).state = NEC_STATE_FIN ∧
    (edge false 9 (edges [(true, 140), (false, 35)] (nec_start power_on))).state
      = NEC_STATE_AGC ∧
    (edge false 9 (edges [(true, 140), (false, 35)] (nec_start power_on))).counter = 32 :=
  ⟨by decide,
    (unmatched_edge_resets_phase (edges [(true, 140), (false, 35)] (nec_start power_on))
      false 9 (by decide) (by decide) (by decide)).1,
    by decide⟩

/-- C14: for an armed decoder in phase `NEC_STATE_GAP` and a tick `t` in 0..255, a
low-level edge with `60 < t < 80` moves the phase to `NEC_STATE_BIT`, a low-level edge with
`30 < t < 40` moves it to `NEC_STATE_FIN`, and any other edge (a high-level edge, or a
low-level edge with `t ≤ 30`, `40 ≤ t ≤ 60` or `80 ≤ t`) moves it to `NEC_STATE_AGC`;
`buffer`, `counter` and `ready` are unchanged in every case. -/
theorem gap_windows (s : Decoder) (l : Bool) (t : Nat) (hen : int0_enabled s)
    (hs : s.state = NEC_STATE_GAP) (ht : t < 256) :
    ((l = false ∧ 60 < t ∧ t < 80) → (edge l t s).state = NEC_STATE_BIT) ∧
    ((l = false ∧ 30 < t ∧ t < 40) → (edge l t s).state = NEC_STATE_FIN) ∧
    ((l = true ∨ t ≤ 30 ∨ (40 ≤ t ∧ t ≤ 60) ∨ 80 ≤ t) →
      (edge l t s).state = NEC_STATE_AGC) ∧
    (edge l t s).buffer = s.buffer ∧ (edge l t s).counter = s.counter ∧
    (edge l t s).ready = s.ready := by
  by_cases hn : l = false ∧ 60 < t ∧ t < 80
  · obtain ⟨hl, h1, h2⟩ := hn
    subst hl
    rw [edge_new_gap s t hen hs h1 h2]
    refine ⟨fun _ => rfl, fun h => ?_, fun h => ?_, rfl, rfl, rfl⟩
    · omega
    · simp at h
      omega
  · by_cases hr : l = false ∧ 30 < t ∧ t < 40
    · obtain ⟨hl, h1, h2⟩ := hr
      subst hl
      rw [edge_repeat_gap s t hen hs h1 h2]
      refine ⟨fun h => ?_, fun _ => rfl, fun h => ?_, rfl, rfl, rfl⟩
      · omega
      · simp at h
        omega
    · have hno : ¬ spec_table_row s.state l t := by
        simp only [spec_table_row, hs, NEC_STATE_AGC, NEC_STATE_GAP, NEC_STATE_BIT,
          NEC_STATE_FIN]
        intro h
        rcases h with h | h | h | h | h | h
        · exact absurd h.1 (by decide)
        · exact hn h.2
        · exact hr h.2
        · exact absurd h.1 (by decide)
        · exact absurd h.1 (by decide)
        · exact absurd h.1 (by decide)
      rw [edge_unmatched s l t hen ht hno]
      exact ⟨fun h => absurd h hn, fun h => absurd h hr, fun _ => rfl, rfl, rfl, rfl⟩

theorem gap_windows_witness :
    (edge false 61 (edge true 140 (nec_start power_on))).state = NEC_STATE_BIT ∧
    (edge false 39 (edge true 140 (nec_start power_on))).state = NEC_STATE_FIN ∧
    (edge false 40 (edge true 140 (nec_start power_on))).state = NEC_STATE_AGC ∧
    (edge true 70 (edge true 140 (nec_start power_on))).state = NEC_STATE_AGC :=
  ⟨(gap_windows (edge true 140 (nec_start power_on)) false 61
      (by decide) (by decide) (by decide)).1 (by decide),
    (gap_windows (edge true 140 (nec_start power_on)) false 39
      (by decide) (by decide) (by decide)).2.1 (by decide),
    (gap_windows (edge true 140 (nec_start power_on)) false 40
      (by decide) (by decide) (by decide)).2.2.1 (by decide),
    (gap_windows (edge true 140 (nec_start power_on)) true 70
      (by decide) (by decide) (by decide)).2.2.1 (by decide)⟩

/-- C16: for an armed decoder in phase `NEC_STATE_FIN` and any tick, a high-level edge sets
`ready = 1` and clears the INT0 enable, leaving `buffer`, `counter` and `state` as they
were; `nec_read` then returns 1 and stores the `buffer` held before the stop edge. -/
theorem stop_edge_finalises (s : Decoder) (t d : Nat) (hen : int0_enabled s)
    (hs : s.state = NEC_STATE_FIN) :
    (edge true t s).ready = 1 ∧ ¬ int0_enabled (edge true t s) ∧
    (edge true t s).buffer = s.buffer ∧ (edge true t s).counter = s.counter ∧
    (edge true t s).state = s.state ∧
    (nec_read (edge true t s) d).ret = 1 ∧ (nec_read (edge true t s) d).data = s.buffer := by
  have hd : ¬ int0_enabled (edge true t s) := by
    rw [edge_stop s t hen hs]
    exact disabled_of_land_254 rfl
  refine ⟨?_, hd, ?_, ?_, ?_, ?_, ?_⟩ <;> rw [edge_stop s t hen hs] <;> simp [nec_read]

theorem stop_edge_finalises_witness :
    int0_enabled (edges [(true, 140), (false, 35)] (nec_start power_on)) ∧
    (edge true 200 (edges [(true, 140), (false, 35)] (nec_start power_on))).ready = 1 ∧
    (nec_read (edge true 200 (edges [(true, 140), (false, 35)] (nec_start power_on))) 5).data
      = 0 :=
  have h := stop_edge_finalises (edges [(true, 140), (false, 35)] (nec_start power_on))
    200 5 (by decide) (by decide)
  ⟨by decide, h.1, h.2.2.2.2.2.2⟩

/-! ## Consuming a bit -/

/-- C12 (as stated, refuted): an armed decoder in phase `NEC_STATE_BIT` with `counter = 1`
and `buffer = 1` handles a short low edge (decoded bit 0): `counter` becomes 0 but bit 0 of
`buffer` is still 1, since the handler only ever ORs into `buffer`. -/
theorem short_bit_keeps_set_bit :
    int0_enabled (receiving 1 1) ∧ (receiving 1 1).state = NEC_STATE_BIT ∧
    (receiving 1 1).counter = 1 ∧ (receiving 1 1).buffer = 1 ∧
    (edge false 7 (receiving 1 1)).counter = 0 ∧
    (edge false 7 (receiving 1 1)).buffer.testBit 0 = true := by
  decide

/-- C12 (amended): for an armed decoder in phase `NEC_STATE_BIT` with `counter = n`,
`1 ≤ n ≤ 32`, a low edge with tick in (5,10) sets `counter` to `n - 1` and leaves `buffer`
as it was; a low edge with tick in (20,30) sets `counter` to `n - 1` and, when `n ≤ 15`,
sets bit `n - 1` of `buffer` and leaves every other bit as it was. -/
theorem bit_edge_ors_mask (s : Decoder) (t : Nat) (hen : int0_enabled s)
    (hs : s.state = NEC_STATE_BIT) (h1 : 1 ≤ s.counter) (h2 : s.counter ≤ 32) :
    ((5 < t ∧ t < 10) →
      (edge false t s).counter = s.counter - 1 ∧ (edge false t s).buffer = s.buffer) ∧
    ((20 < t ∧ t < 30) →
      (edge false t s).counter = s.counter - 1 ∧
      (s.counter ≤ 15 →
        (edge false t s).buffer.testBit (s.counter - 1) = true ∧
        ∀ i, i ≠ s.counter - 1 →
          (edge false t s).buffer.testBit i = s.buffer.testBit i)) := by
  have hd : dec_uint8 s.counter = s.counter - 1 := dec_uint8_pos h1 (by omega)
  constructor
  · intro hw
    rw [edge_short_bit s t hen hs hw.1 hw.2, hd, mask_zero]
    exact ⟨rfl, Nat.or_zero _⟩
  · intro hw
    rw [edge_long_bit s t hen hs hw.1 hw.2, hd]
    refine ⟨rfl, ?_⟩
    intro h15
    rw [mask_below_sign (s.counter - 1) (by omega)]
    constructor
    · simp [Nat.testBit_or, Nat.testBit_two_pow]
    · intro i hi
      have hne : ¬ s.counter - 1 = i := fun h => hi h.symm
      simp [Nat.testBit_or, Nat.testBit_two_pow, hne]

theorem bit_edge_ors_mask_witness :
    (edge false 7 (receiving 3 0)).counter = 2 ∧ (edge false 7 (receiving 3 0)).buffer = 0 ∧
    (edge false 25 (receiving 3 0)).buffer.testBit 2 = true :=
  have h := bit_edge_ors_mask (receiving 3 0) 7 (by decide) (by decide) (by decide)
    (by decide)
  have h' := bit_edge_ors_mask (receiving 3 0) 25 (by decide) (by decide) (by decide)
    (by decide)
  ⟨(h.1 (by decide)).1, (h.1 (by decide)).2, ((h'.2 (by decide)).2 (by decide)).1⟩

/-- The accepted bit edge that finds `counter = 1`. -/
theorem edge_bit_last (s : Decoder) (t : Nat) (hen : int0_enabled s)
    (hs : s.state = NEC_STATE_BIT) (hacc : accepted_bit t) (hc : s.counter = 1) :
    (edge false t s).state = NEC_STATE_FIN ∧ (edge false t s).counter = 0 ∧
    (edge false t s).ready = s.ready ∧ (edge false t s).EIMSK = s.EIMSK := by
  have hd : dec_uint8 s.counter = 0 := by rw [hc]; decide
  rcases hacc with ⟨a, b⟩ | ⟨a, b⟩
  · rw [edge_short_bit s t hen hs a b]
    simp [hd]
  · rw [edge_long_bit s t hen hs a b]
    simp [hd]

theorem bit_run_complete (ts : List Nat) (s : Decoder) (hen : int0_enabled s)
    (hs : s.state = NEC_STATE_BIT) (hacc : ∀ t ∈ ts, accepted_bit t)
    (hc : s.counter = ts.length) (h1 : 1 ≤ ts.length) (h2 : ts.length ≤ 32) :
    (edges (low_edges ts) s).state = NEC_STATE_FIN ∧
    (edges (low_edges ts) s).counter = 0 ∧
    (edges (low_edges ts) s).ready = s.ready ∧
    (edges (low_edges ts) s).EIMSK = s.EIMSK := by
  induction ts generalizing s with
  | nil => simp at h1
  | cons t ts ih =>
    simp only [List.length_cons] at hc h2
    simp only [low_edges, List.map_cons, edges]
    cases ts with
    | nil =>
      simp only [List.map_nil, edges]
      exact edge_bit_last s t hen hs (hacc t (List.mem_cons_self t [])) hc
    | cons t2 ts2 =>
      simp only [List.length_cons] at hc h2
      obtain ⟨e1, e2, e3, e4⟩ :=
        edge_bit_partial s t hen hs (hacc t (List.mem_cons_self t _)) (by omega) (by omega)
      have hen2 : int0_enabled (edge false t s) := by
        rw [int0_enabled_iff, e4]; exact hen
      obtain ⟨i1, i2, i3, i4⟩ :=
        ih (edge false t s) hen2 e1 (fun u hu => hacc u (List.mem_cons_of_mem t hu))
          (by rw [e2, hc]; simp) (by simp) (by simp only [List.length_cons]; omega)
      simp only [low_edges, List.map_cons, edges] at i1 i2 i3 i4
      exact ⟨i1, i2, i3.trans e3, i4.trans e4⟩

/-- C15: for an armed decoder in phase `NEC_STATE_BIT` with `counter = n`, `1 ≤ n ≤ 32`, an
accepted bit edge moves the phase to `NEC_STATE_FIN` exactly when `n = 1` and otherwise
leaves it at `NEC_STATE_BIT`; so after `nec_start`, a preamble and a new-data gap, the phase
after `k ≤ 32` accepted bit edges is `NEC_STATE_FIN` exactly when `k = 32` (and
`NEC_STATE_BIT` before), with `ready` still 0. -/
theorem complete_on_last_bit (s : Decoder) (t : Nat) (hen : int0_enabled s)
    (hs : s.state = NEC_STATE_BIT) (h1 : 1 ≤ s.counter) (h2 : s.counter ≤ 32)
    (hacc : accepted_bit t) :
    ((edge false t s).state = NEC_STATE_FIN ↔ s.counter = 1) ∧
    (s.counter ≠ 1 → (edge false t s).state = NEC_STATE_BIT) ∧
    (∀ (s0 : Decoder) (p g : Nat) (ts : List Nat),
      120 < p → p < 160 → 60 < g → g < 80 → (∀ u ∈ ts, accepted_bit u) → ts.length ≤ 32 →
      ((edges ((true, p) :: (false, g) :: low_edges ts) (nec_start s0)).state = NEC_STATE_FIN
        ↔ ts.length = 32) ∧
      (ts.length < 32 →
        (edges ((true, p) :: (false, g) :: low_edges ts) (nec_start s0)).state
          = NEC_STATE_BIT) ∧
      (edges ((true, p) :: (false, g) :: low_edges ts) (nec_start s0)).ready = 0) := by
  have step : s.counter ≠ 1 → (edge false t s).state = NEC_STATE_BIT := by
    intro hne
    have hstay := edge_bit_partial s t hen hs hacc (by omega) h2
    exact hstay.1
  refine ⟨⟨?_, ?_⟩, step, ?_⟩
  · intro hfin
    by_contra hne
    rw [step hne] at hfin
    exact absurd hfin (by decide)
  · intro hc
    exact (edge_bit_last s t hen hs hacc hc).1
  · intro s0 p g ts hp1 hp2 hg1 hg2 haccs hlen
    by_cases hk : ts.length < 32
    · obtain ⟨c1, _, c3, _⟩ := partial_capture s0 p g ts hp1 hp2 hg1 hg2 haccs hk
      refine ⟨⟨fun hfin => ?_, fun h => ?_⟩, fun _ => c1, c3⟩
      · rw [c1] at hfin
        exact absurd hfin (by decide)
      · omega
    · have h32 : ts.length = 32 := by omega
      obtain ⟨a1, a2, _, a4, a5⟩ := header_run s0 p g hp1 hp2 hg1 hg2
      have hrun : edges ((true, p) :: (false, g) :: low_edges ts) (nec_start s0) =
          edges (low_edges ts) (edges [(true, p), (false, g)] (nec_start s0)) := rfl
      rw [hrun]
      generalize edges [(true, p), (false, g)] (nec_start s0) = X at a1 a2 a4 a5
      obtain ⟨i1, _, i3, _⟩ :=
        bit_run_complete ts X a5 a1 haccs (by rw [a2, h32]) (by omega) hlen
      exact ⟨⟨fun _ => h32, fun _ => i1⟩, fun h => absurd h hk, i3.trans a4⟩

theorem complete_on_last_bit_witness :
    ((edge false 7 (receiving 1 0)).state = NEC_STATE_FIN ↔ (receiving 1 0).counter = 1) ∧
    (edge false 7 (receiving 2 0)).state = NEC_STATE_BIT :=
  ⟨(complete_on_last_bit (receiving 1 0) 7 (by decide) (by decide) (by decide) (by decide)
      (by decide)).1,
    (complete_on_last_bit (receiving 2 0) 7 (by decide) (by decide) (by decide) (by decide)
      (by decide)).2.1 (by decide)⟩

/-! ## The timer overflow flag -/

/-- C17: for every decoder state, every value of `PIND` and tick count, and any two
contents `f1`, `f2` of `TIFR0` on entry (overflow flag `TOV0` set or clear), the handler
leaves the same `buffer`, `counter`, `state`, `ready` and `EIMSK`; the same holds for an
edge at either level, whose handling is gated by the INT0 enable only. -/
theorem overflow_flag_ignored (P : Nat) (s : Decoder) (f1 f2 : Nat) (l : Bool) (t : Nat) :
    (INT0_vect P { s with TIFR0 := f1 }).buffer = (INT0_vect P { s with TIFR0 := f2 }).buffer ∧
    (INT0_vect P { s with TIFR0 := f1 }).counter
      = (INT0_vect P { s with TIFR0 := f2 }).counter ∧
    (INT0_vect P { s with TIFR0 := f1 }).state = (INT0_vect P { s with TIFR0 := f2 }).state ∧
    (INT0_vect P { s with TIFR0 := f1 }).ready = (INT0_vect P { s with TIFR0 := f2 }).ready ∧
    (INT0_vect P { s with TIFR0 := f1 }).EIMSK = (INT0_vect P { s with TIFR0 := f2 }).EIMSK ∧
    (edge l t { s with TIFR0 := f1 }).buffer = (edge l t { s with TIFR0 := f2 }).buffer ∧
    (edge l t { s with TIFR0 := f1 }).counter = (edge l t { s with TIFR0 := f2 }).counter ∧
    (edge l t { s with TIFR0 := f1 }).state = (edge l t { s with TIFR0 := f2 }).state ∧
    (edge l t { s with TIFR0 := f1 }).ready = (edge l t { s with TIFR0 := f2 }).ready ∧
    (edge l t { s with TIFR0 := f1 }).EIMSK = (edge l t { s with TIFR0 := f2 }).EIMSK := by
  have core : ∀ (Q : Nat) (u : Decoder),
      (INT0_vect Q { u with TIFR0 := f1 }).buffer
        = (INT0_vect Q { u with TIFR0 := f2 }).buffer ∧
      (INT0_vect Q { u with TIFR0 := f1 }).counter
        = (INT0_vect Q { u with TIFR0 := f2 }).counter ∧
      (INT0_vect Q { u with TIFR0 := f1 }).state
        = (INT0_vect Q { u with TIFR0 := f2 }).state ∧
      (INT0_vect Q { u with TIFR0 := f1 }).ready
        = (INT0_vect Q { u with TIFR0 := f2 }).ready ∧
      (INT0_vect Q { u with TIFR0 := f1 }).EIMSK
        = (INT0_vect Q { u with TIFR0 := f2 }).EIMSK := by
    intro Q u
    obtain ⟨b, r, c, st, e, tc, tf⟩ := u
    simp only [INT0_vect]
    generalize to_uint8 (Q &&& _BV PD2) = pin
    generalize to_uint8 tc = tau
    simp only [ne_eq, not_true_eq_false, false_and, if_false]
    split_ifs <;> exact ⟨rfl, rfl, rfl, rfl, rfl⟩
  obtain ⟨c1, c2, c3, c4, c5⟩ := core P s
  refine ⟨c1, c2, c3, c4, c5, ?_⟩
  unfold edge
  by_cases hen : int0_enabled s
  · have h1 : int0_enabled { s with TIFR0 := f1 } := hen
    have h2 : int0_enabled { s with TIFR0 := f2 } := hen
    rw [if_pos h1, if_pos h2]
    exact core (pind_of l) { s with TCNT0 := t }
  · have h1 : ¬ int0_enabled { s with TIFR0 := f1 } := hen
    have h2 : ¬ int0_enabled { s with TIFR0 := f2 } := hen
    rw [if_neg h1, if_neg h2]
    exact ⟨rfl, rfl, rfl, rfl, rfl⟩

/-! ## Invariants of the reachable states -/

/-- C18: in every decoder state reached from `nec_start` by any interleaving of edges
(handled only while INT0 is enabled), `nec_stop`, `nec_read` and `nec_start`, `ready = 1`
implies that the phase is `NEC_STATE_FIN` and INT0 is disabled; in such a state no sequence
of edges changes the decoder, so `buffer` is not written. -/
theorem ready_means_complete_and_disabled (s0 : Decoder) (ops : List Op)
    (h : (run ops (nec_start s0)).ready = 1) :
    (run ops (nec_start s0)).state = NEC_STATE_FIN ∧
    ¬ int0_enabled (run ops (nec_start s0)) ∧
    (∀ es : List (Bool × Nat),
      edges es (run ops (nec_start s0)) = run ops (nec_start s0) ∧
      (edges es (run ops (nec_start s0))).buffer = (run ops (nec_start s0)).buffer) := by
  have hne : (run ops (nec_start s0)).ready ≠ 0 := by rw [h]; decide
  obtain ⟨h1, h2⟩ := ready_inv_run ops (nec_start s0) (fun h0 => absurd rfl h0) hne
  refine ⟨h1, h2, ?_⟩
  intro es
  rw [edges_disabled es _ h2]
  exact ⟨rfl, rfl⟩

theorem ready_means_complete_and_disabled_witness :
    (run [Op.edge true 140, Op.edge false 35, Op.edge true 0, Op.read 3, Op.stop]
      (nec_start power_on)).ready = 1 ∧
    (run [Op.edge true 140, Op.edge false 35, Op.edge true 0, Op.read 3, Op.stop]
      (nec_start power_on)).state = NEC_STATE_FIN :=
  ⟨by decide, (ready_means_complete_and_disabled power_on _ (by decide)).1⟩

/-- C19 (the code at a failing input): after `nec_start`, a frame completed by 32 short bit
edges, one more low edge (rejected in phase `NEC_STATE_FIN`), a fresh preamble and a
new-data gap, the phase is `NEC_STATE_BIT` with `counter = 0`, because the rejected edge
resets `state` only; the next accepted bit edge wraps `counter` to 255, which is then the
shift amount, and the phase stays `NEC_STATE_BIT`. -/
theorem counter_wraps_after_reject :
    restart_after_complete.length = 37 ∧
    (edges restart_after_complete (nec_start power_on)).state = NEC_STATE_BIT ∧
    (edges restart_after_complete (nec_start power_on)).counter = 0 ∧
    int0_enabled (edges restart_after_complete (nec_start power_on)) ∧
    (edge false 7 (edges restart_after_complete (nec_start power_on))).counter = 255 ∧
    (edge false 7 (edges restart_after_complete (nec_start power_on))).state
      = NEC_STATE_BIT := by
  decide

end NEC
